import Mathlib

/-!
# Verification of the `BinaryTree` container (binarytree.hpp)

A shallow embedding of the generic binary-search-tree container of this
repository.  The C++ class `BinaryTree<T, Compare, Equal>` owns a linked
structure of `Node`s (a data value plus owning pointers to at most two
children), stores the two comparison functors and a node count, and exposes
insertion, membership query, subtree extraction, copy semantics, in-order
iteration and stream printing.

Modelling choices:
* a `Node*` pointer structure is the inductive type `Node T` (`nil` models
  the null pointer, `node` a heap node with its two child pointers);
* the functors `Compare` and `Equal` are `Bool`-valued binary functions,
  stored in the container structure exactly as the C++ members are;
* `throw std::runtime_error` (the duplicate-insertion error) is `Except Unit`;
* the iterator's `Node* current` pointer is modelled by the access path of
  the node from the root (`List Bool`, `false` = left child, `true` = right
  child); pointer equality of nodes of one tree is path equality;
* `std::bad_alloc` during a deep copy (the only way `copy_subtree` can fail)
  is modelled by an explicit allocation budget: one unit per `new Node`,
  allocation failing once the budget is exhausted.
-/

namespace BinTreeSpec

/-- The node structure of `BinaryTree` (`struct Node`): a data value and the
two owning child pointers; `nil` is the null pointer. -/
inductive Node (T : Type) where
  | nil : Node T
  | node (data : T) (left : Node T) (right : Node T) : Node T
  deriving DecidableEq

/-- In-order listing of the values of a node structure (left subtree, then
the node's value, then the right subtree). -/
def inorder {T : Type} : Node T → List T
  | .nil => []
  | .node d l r => inorder l ++ d :: inorder r

/-- `BinaryTree::print_in_order(Node*, std::ostream&)`: recursive in-order
printing.  The stream contents are modelled as the list of printed elements;
on the real stream every element is followed by a single space
(`os << node->data << " "`). -/
def print_in_order {T : Type} : Node T → List T
  | .nil => []
  | .node d l r => print_in_order l ++ d :: print_in_order r

/-- `BinaryTree::count_nodes(Node*)`: number of nodes reachable from a node. -/
def count_nodes {T : Type} : Node T → Nat
  | .nil => 0
  | .node _ l r => 1 + count_nodes l + count_nodes r

/-- The private recursive `BinaryTree::insert(Node* node, const T& value)`.
It returns the updated subtree together with the number of `node_count++`
increments executed (the increment happens exactly when the new leaf is
created).  `equal(value, node->data)` is checked before
`compare(value, node->data)`, exactly as in the source; an equality match
throws (`Except.error`), which aborts the whole insertion before any child
link is updated. -/
def Node.insert {T : Type} (equal compare : T → T → Bool) :
    Node T → T → Except Unit (Node T × Nat)
  | .nil, v => .ok (.node v .nil .nil, 1)
  | .node d l r, v =>
    if equal v d then
      .error ()
    else if compare v d then
      match Node.insert equal compare l v with
      | .ok (l2, k) => .ok (.node d l2 r, k)
      | .error e => .error e
    else
      match Node.insert equal compare r v with
      | .ok (r2, k) => .ok (.node d l r2, k)
      | .error e => .error e

/-- The descent of the private `insert` hits a node whose value is equal
(per `equal`, checked before `compare`) to the value being inserted.  This
is the condition under which the source throws its duplicate error. -/
def duplicateOnPath {T : Type} (equal compare : T → T → Bool) :
    Node T → T → Bool
  | .nil, _ => false
  | .node d l r, v =>
    if equal v d then true
    else if compare v d then duplicateOnPath equal compare l v
    else duplicateOnPath equal compare r v

/-- The private recursive `BinaryTree::exists(Node*, const T&)`.  Note the
argument order of the source: it tests `equal(node->data, value)` but
descends by `compare(value, node->data)`. -/
def Node.existsB {T : Type} (equal compare : T → T → Bool) :
    Node T → T → Bool
  | .nil, _ => false
  | .node d l r, v =>
    if equal d v then true
    else if compare v d then Node.existsB equal compare l v
    else Node.existsB equal compare r v

/-- `BinaryTree::find_subtree(Node*, const T&)`: the node rooting the
subtree whose value satisfies `equal(node->data, value)`, found by the same
descent as `exists`; `none` models returning `nullptr`. -/
def Node.find_subtree {T : Type} (equal compare : T → T → Bool) :
    Node T → T → Option (Node T)
  | .nil, _ => none
  | .node d l r, v =>
    if equal d v then some (.node d l r)
    else if compare v d then Node.find_subtree equal compare l v
    else Node.find_subtree equal compare r v

/-- `BinaryTree::destroy_tree(Node*)`: releases every node; afterwards no
node is reachable, which the embedding records as the empty structure. -/
def destroy_tree {T : Type} : Node T → Node T := fun _ => .nil

/-- `BinaryTree::copy_subtree(Node*&, Node*)` under normal execution (every
`new Node` succeeds): a structurally identical, node-disjoint duplicate. -/
def copy_subtree {T : Type} : Node T → Node T
  | .nil => .nil
  | .node d l r => .node d (copy_subtree l) (copy_subtree r)

/-- `BinaryTree::copy_subtree` instrumented with an allocation budget that
models `std::bad_alloc`: each `new Node(src->data)` consumes one unit and
fails when the budget is zero.  The result is the structure reachable from
`dest` when the call returns or throws (the source allocates the node, then
copies the left subtree, then the right subtree, so a failure leaves a
partial structure behind for the caller's `catch` block to release), the
remaining budget, and whether the copy completed. -/
def copySubB {T : Type} : Node T → Nat → Node T × Nat × Bool
  | .nil, b => (.nil, b, true)
  | .node _ _ _, 0 => (.nil, 0, false)
  | .node d l r, b + 1 =>
    match copySubB l b with
    | (lc, b1, true) =>
      match copySubB r b1 with
      | (rc, b2, ok2) => (.node d lc rc, b2, ok2)
    | (lc, b1, false) => (.node d lc .nil, b1, false)

/-- The container `BinaryTree<T, Compare, Equal>`: root pointer, the two
comparison functors and the maintained node count. -/
structure BinaryTree (T : Type) where
  root : Node T
  compare : T → T → Bool
  equal : T → T → Bool
  node_count : Nat

/-- The default constructor `BinaryTree()` (empty tree), with the two
functors it carries. -/
def BinaryTree.mkEmpty {T : Type} (compare equal : T → T → Bool) :
    BinaryTree T :=
  { root := .nil, compare := compare, equal := equal, node_count := 0 }

/-- The public `BinaryTree::insert(const T&)`: `root = insert(root, value)`.
The result is the container after the call together with the call's outcome;
when the private insert throws, no assignment and no count increment has
happened, so the container is unchanged. -/
def BinaryTree.insert {T : Type} (bt : BinaryTree T) (v : T) :
    BinaryTree T × Except Unit Unit :=
  match Node.insert bt.equal bt.compare bt.root v with
  | .ok (t, k) => ({ bt with root := t, node_count := bt.node_count + k }, .ok ())
  | .error e => (bt, .error e)

/-- The sequence constructor's loop: `for (it = first; it != last; ++it)
insert(*it);` run on an accumulating container; a duplicate aborts the loop,
the `catch` block destroys every node built so far and rethrows, so no
container value is produced. -/
def insertSeq {T : Type} : List T → BinaryTree T → Except Unit (BinaryTree T)
  | [], bt => .ok bt
  | v :: rest, bt =>
    match BinaryTree.insert bt v with
    | (bt2, .ok _) => insertSeq rest bt2
    | (_, .error e) => .error e

/-- `BinaryTree(InputIt first, InputIt last, Compare, Equal)`: builds from
the given sequence by inserting each element in order. -/
def BinaryTree.ofSeq {T : Type} (compare equal : T → T → Bool) (l : List T) :
    Except Unit (BinaryTree T) :=
  insertSeq l (BinaryTree.mkEmpty compare equal)

/-- The public `BinaryTree::exists(const T&)`. -/
def BinaryTree.existsB {T : Type} (bt : BinaryTree T) (v : T) : Bool :=
  Node.existsB bt.equal bt.compare bt.root v

/-- `BinaryTree::size()`: returns the maintained `node_count` member. -/
def BinaryTree.size {T : Type} (bt : BinaryTree T) : Nat :=
  bt.node_count

/-- `BinaryTree::subtree(const T&)`: locates the matching node with
`find_subtree`, deep-copies the subtree rooted there into a fresh container
and recounts its nodes (`sub_tree.node_count = count_nodes(sub_tree.root)`);
when nothing matches it returns the default-constructed empty container.
The C++ result carries default-constructed functors of the same types, which
behave as the source container's ones. -/
def BinaryTree.subtree {T : Type} (bt : BinaryTree T) (v : T) : BinaryTree T :=
  match Node.find_subtree bt.equal bt.compare bt.root v with
  | none =>
      { root := .nil, compare := bt.compare, equal := bt.equal, node_count := 0 }
  | some s =>
      { root := copy_subtree s, compare := bt.compare, equal := bt.equal,
        node_count := count_nodes (copy_subtree s) }

/-- The copy constructor `BinaryTree(const BinaryTree&)` under normal
execution: duplicates the source structure and copies its stored count (the
count is copied only when the source root is non-null; otherwise it stays
zero). -/
def BinaryTree.copy {T : Type} (other : BinaryTree T) : BinaryTree T :=
  { root := copy_subtree other.root, compare := other.compare,
    equal := other.equal,
    node_count :=
      match other.root with
      | .nil => 0
      | .node _ _ _ => other.node_count }

/-- `BinaryTree::operator=`: `same` models the pointer identity test
`this != &other` (self-assignment does nothing).  Otherwise the target's
nodes are destroyed first, the members are overwritten, and the source is
duplicated with the given allocation budget; when duplication fails partway
the `catch` block releases the partially built nodes and rethrows, leaving
the target without any owned node (the prior contents are already gone). -/
def BinaryTree.assign {T : Type} (target other : BinaryTree T) (same : Bool)
    (budget : Nat) : BinaryTree T × Except Unit Unit :=
  if same then (target, .ok ())
  else
    match copySubB other.root budget with
    | (c, _, true) =>
        ({ root := c, compare := other.compare, equal := other.equal,
           node_count :=
             match other.root with
             | .nil => 0
             | .node _ _ _ => other.node_count }, .ok ())
    | (partial_, _, false) =>
        ({ root := destroy_tree partial_, compare := other.compare,
           equal := other.equal, node_count := 0 }, .error ())

/-! ## The in-order iterator

`BinaryTree::const_iterator` keeps a `Node *current` and the root pointer.
`current` is modelled as the access path of the current node (`none` is the
null pointer, i.e. the end iterator).  `findNext` re-descends from the root
comparing with the element type's built-in `operator<` (`node->data <
ancestor->data` in the source) — not with the configured `Compare` functor —
and compares node pointers (`ancestor != node`, path equality here). -/

/-- The loop of the constructor `while (current->left != nullptr) current =
current->left;`: the relative path from a node to the leftmost node of its
subtree. -/
def relLeftmost {T : Type} : Node T → List Bool
  | .nil => []
  | .node _ .nil _ => []
  | .node _ (.node a l2 r2) _ => false :: relLeftmost (.node a l2 r2)

/-- Pointer dereference along an access path: the subtree reached from `t`
by the child steps of `p` (`false` = left, `true` = right). -/
def subAt {T : Type} : Node T → List Bool → Node T
  | t, [] => t
  | .nil, _ :: _ => .nil
  | .node _ l _, false :: p => subAt l p
  | .node _ _ r, true :: p => subAt r p

/-- The no-right-child branch of `const_iterator::findNext`: re-descend from
the root (`ancestor`), recording the most recent ancestor left of which the
descent continued (`successor = ancestor` before `ancestor = ancestor->left`),
until `ancestor == node` (pointer, i.e. path, equality).  The descent steps
by `node->data < ancestor->data` — the element type's raw `operator<`, given
here as `lt`.  If `ancestor` becomes null while still different from `node`,
the next loop iteration dereferences a null pointer; that undefined behaviour
is `Except.error ()`. -/
def findNextLoop {T : Type} (lt : T → T → Bool) (v : T) (nodePath : List Bool) :
    Node T → List Bool → Option (List Bool) → Except Unit (Option (List Bool))
  | anc, ancPath, succ =>
    if ancPath = nodePath then .ok succ
    else
      match anc with
      | .nil => .error ()
      | .node d l r =>
        if lt v d then
          findNextLoop lt v nodePath l (ancPath ++ [false]) (some ancPath)
        else
          findNextLoop lt v nodePath r (ancPath ++ [true]) succ

/-- `const_iterator::findNext(Node*)`: with a right child, the leftmost node
of the right subtree; otherwise the re-descent loop from the root.  `.ok
none` is returning a null successor (end of traversal). -/
def findNext {T : Type} (lt : T → T → Bool) (root : Node T) (p : List Bool) :
    Except Unit (Option (List Bool)) :=
  match subAt root p with
  | .nil => .error ()
  | .node d _ .nil => findNextLoop lt d p root [] none
  | .node _ _ (.node a rl rr) =>
      .ok (some (p ++ true :: relLeftmost (.node a rl rr)))

/-- `BinaryTree::begin()`: `const_iterator(root, root)`, whose constructor
walks to the leftmost node; on an empty tree `current` stays null. -/
def beginPath {T : Type} : Node T → Option (List Bool)
  | .nil => none
  | .node d l r => some (relLeftmost (.node d l r))

/-- The canonical iteration loop `for (it = begin(); it != end(); ++it)
collect(*it);` starting from a given iterator position, with enough `fuel`
for the finite traversal.  Dereferencing an invalid pointer, a crash inside
`findNext`, or running out of fuel is `Except.error ()`. -/
def iterFrom {T : Type} (lt : T → T → Bool) (root : Node T) :
    Option (List Bool) → Nat → Except Unit (List T)
  | none, _ => .ok []
  | some _, 0 => .error ()
  | some p, fuel + 1 =>
    match subAt root p with
    | .nil => .error ()
    | .node d _ _ =>
      match findNext lt root p with
      | .error _ => .error ()
      | .ok next =>
        match iterFrom lt root next fuel with
        | .ok rest => .ok (d :: rest)
        | .error e => .error e

/-- Iterating the whole container from `begin()` to `end()`. -/
def iterate {T : Type} (lt : T → T → Bool) (root : Node T) (fuel : Nat) :
    Except Unit (List T) :=
  iterFrom lt root (beginPath root) fuel

/-- `begin()` as an iterator value (the `current` pointer). -/
def BinaryTree.begin {T : Type} (bt : BinaryTree T) : Option (List Bool) :=
  beginPath bt.root

/-- `end()`: `const_iterator(nullptr, root)`, a null `current` pointer. -/
def BinaryTree.endIter {T : Type} (_bt : BinaryTree T) : Option (List Bool) :=
  none

/-! ## Concrete functor instances used by the demonstration driver

`std::less<Nat>` / `std::equal_to<Nat>` (the defaults, also the behaviour of
`IntCompare` / `IntEqual` in `main.cpp`), plus a reversed strict total order
used to exercise a non-default configuration. -/

/-- `std::less`-style comparison on `Nat`. -/
def ltNat : Nat → Nat → Bool := fun a b => decide (a < b)

/-- `std::equal_to`-style equality on `Nat`. -/
def eqNat : Nat → Nat → Bool := fun a b => decide (a = b)

/-- `std::greater`-style comparison on `Nat`: a strict total order that is
the reverse of the built-in `<`. -/
def gtNat : Nat → Nat → Bool := fun a b => decide (b < a)

/-- The element type's built-in `operator<` for a linearly ordered type
(this is what `findNext` hardcodes). -/
def ltB {T : Type} [LinearOrder T] : T → T → Bool := fun a b => decide (a < b)

/-! ## Specification-side predicates -/

/-- Every value in the structure satisfies `p`. -/
def allB {T : Type} (p : T → Bool) : Node T → Bool
  | .nil => true
  | .node d l r => p d && allB p l && allB p r

/-- The strict binary-search-tree invariant with respect to the element
type's linear order: left-subtree values are strictly below the node value,
right-subtree values strictly above, recursively. -/
def isBSTb {T : Type} [LinearOrder T] : Node T → Bool
  | .nil => true
  | .node d l r =>
      allB (fun x => decide (x < d)) l && allB (fun x => decide (d < x)) r &&
        isBSTb l && isBSTb r

/-! ## Basic structure lemmas -/

theorem inorder_length {T : Type} (t : Node T) :
    (inorder t).length = count_nodes t := by
  induction t with
  | nil => simp [inorder, count_nodes]
  | node d l r ihl ihr => simp [inorder, count_nodes, ihl, ihr]; omega

theorem print_in_order_eq_inorder {T : Type} (t : Node T) :
    print_in_order t = inorder t := by
  induction t with
  | nil => rfl
  | node d l r ihl ihr => simp [print_in_order, inorder, ihl, ihr]

theorem copy_subtree_eq {T : Type} (t : Node T) : copy_subtree t = t := by
  induction t with
  | nil => rfl
  | node d l r ihl ihr => simp [copy_subtree, ihl, ihr]

theorem subAt_nil {T : Type} (p : List Bool) :
    subAt (Node.nil : Node T) p = .nil := by
  cases p <;> rfl

theorem subAt_empty {T : Type} (t : Node T) : subAt t [] = t := by
  cases t <;> rfl

theorem subAt_append {T : Type} (p q : List Bool) (t : Node T) :
    subAt t (p ++ q) = subAt (subAt t p) q := by
  induction p generalizing t with
  | nil => simp [subAt_empty]
  | cons b p ih =>
    cases t with
    | nil => simp [subAt_nil]
    | node d l r => cases b <;> simp [subAt, ih]

theorem allB_iff {T : Type} (p : T → Bool) (t : Node T) :
    allB p t = true ↔ ∀ x ∈ inorder t, p x = true := by
  induction t with
  | nil => simp [allB, inorder]
  | node d l r ihl ihr =>
    simp only [allB, inorder, Bool.and_eq_true, ihl, ihr, List.mem_append,
      List.mem_cons]
    constructor
    · rintro ⟨⟨hd, hl⟩, hr⟩ x (hx | hx | hx)
      · exact hl x hx
      · exact hx ▸ hd
      · exact hr x hx
    · intro h
      exact ⟨⟨h d (Or.inr (Or.inl rfl)), fun x hx => h x (Or.inl hx)⟩,
        fun x hx => h x (Or.inr (Or.inr hx))⟩

theorem allB_subAt {T : Type} (p : T → Bool) (q : List Bool) (t : Node T)
    (h : allB p t = true) {d : T} {l r : Node T}
    (hs : subAt t q = .node d l r) : p d = true := by
  induction q generalizing t with
  | nil =>
    rw [subAt_empty] at hs
    subst hs
    simp [allB, Bool.and_eq_true] at h
    exact h.1.1
  | cons b q ih =>
    cases t with
    | nil => rw [subAt_nil] at hs; exact absurd hs (by simp)
    | node d0 l0 r0 =>
      simp [allB, Bool.and_eq_true] at h
      cases b with
      | false => exact ih l0 h.1.2 hs
      | true => exact ih r0 h.2 hs

theorem isBSTb_subAt {T : Type} [LinearOrder T] (q : List Bool) (t : Node T)
    (h : isBSTb t = true) : isBSTb (subAt t q) = true := by
  induction q generalizing t with
  | nil => rw [subAt_empty]; exact h
  | cons b q ih =>
    cases t with
    | nil => rw [subAt_nil]; rfl
    | node d l r =>
      simp [isBSTb, Bool.and_eq_true] at h
      cases b with
      | false => exact ih l h.1.2
      | true => exact ih r h.2

theorem isBSTb_pairwise {T : Type} [LinearOrder T] (t : Node T)
    (h : isBSTb t = true) : List.Pairwise (· < ·) (inorder t) := by
  induction t with
  | nil => simp [inorder]
  | node d l r ihl ihr =>
    simp only [isBSTb, Bool.and_eq_true] at h
    obtain ⟨⟨⟨hal, har⟩, hbl⟩, hbr⟩ := h
    rw [allB_iff] at hal har
    simp only [inorder, List.pairwise_append, List.pairwise_cons]
    refine ⟨ihl hbl, ⟨fun b hb => ?_, ihr hbr⟩, fun a ha b hb => ?_⟩
    · simpa using har b hb
    · have ha' : a < d := by simpa using hal a ha
      rcases List.mem_cons.mp hb with rfl | hb
      · exact ha'
      · exact ha'.trans (by simpa using har b hb)

/-! ## Lemmas about insertion -/

theorem insert_error_iff {T : Type} (equal compare : T → T → Bool)
    (t : Node T) (v : T) :
    Node.insert equal compare t v = .error () ↔
      duplicateOnPath equal compare t v = true := by
  induction t with
  | nil => simp [Node.insert, duplicateOnPath]
  | node d l r ihl ihr =>
    simp only [Node.insert, duplicateOnPath]
    by_cases h1 : equal v d
    · simp [h1]
    · by_cases h2 : compare v d
      · simp only [h1, h2, if_false, if_true]
        cases hi : Node.insert equal compare l v with
        | ok p => simp [hi] at ihl ⊢; simpa using ihl
        | error e => cases e; simp [hi] at ihl ⊢; simpa using ihl
      · simp only [h1, h2, if_false]
        cases hi : Node.insert equal compare r v with
        | ok p => simp [hi] at ihr ⊢; simpa using ihr
        | error e => cases e; simp [hi] at ihr ⊢; simpa using ihr

theorem insert_ok_spec {T : Type} (equal compare : T → T → Bool)
    (t : Node T) (v : T) {t' : Node T} {k : Nat}
    (h : Node.insert equal compare t v = .ok (t', k)) :
    k = 1 ∧ (inorder t').Perm (v :: inorder t) := by
  induction t generalizing t' k with
  | nil =>
    simp only [Node.insert, Except.ok.injEq, Prod.mk.injEq] at h
    obtain ⟨rfl, rfl⟩ := h
    simp [inorder]
  | node d l r ihl ihr =>
    simp only [Node.insert] at h
    by_cases h1 : equal v d
    · simp [h1] at h
    · by_cases h2 : compare v d
      · rw [if_neg (by simp [h1]), if_pos h2] at h
        cases hi : Node.insert equal compare l v with
        | ok p =>
          obtain ⟨l2, k0⟩ := p
          rw [hi] at h
          simp only [Except.ok.injEq, Prod.mk.injEq] at h
          obtain ⟨h3, h4⟩ := h
          subst h3
          subst h4
          obtain ⟨hk, hp⟩ := ihl hi
          refine ⟨hk, ?_⟩
          simp only [inorder]
          exact hp.append_right (d :: inorder r)
        | error e => rw [hi] at h; exact absurd h (by simp)
      · rw [if_neg (by simp [h1]), if_neg (by simp [h2])] at h
        cases hi : Node.insert equal compare r v with
        | ok p =>
          obtain ⟨r2, k0⟩ := p
          rw [hi] at h
          simp only [Except.ok.injEq, Prod.mk.injEq] at h
          obtain ⟨h3, h4⟩ := h
          subst h3
          subst h4
          obtain ⟨hk, hp⟩ := ihr hi
          refine ⟨hk, ?_⟩
          simp only [inorder]
          exact (((hp.cons d).append_left (inorder l)).trans
            (((List.Perm.swap v d (inorder r)).append_left
              (inorder l)).trans List.perm_middle))
        | error e => rw [hi] at h; exact absurd h (by simp)

theorem insert_count {T : Type} (equal compare : T → T → Bool)
    (t : Node T) (v : T) {t' : Node T} {k : Nat}
    (h : Node.insert equal compare t v = .ok (t', k)) :
    count_nodes t' = count_nodes t + 1 := by
  have hp := (insert_ok_spec equal compare t v h).2
  have := hp.length_eq
  simp only [inorder_length, List.length_cons] at this
  omega

theorem insert_allB {T : Type} (equal compare : T → T → Bool) (p : T → Bool)
    (t : Node T) (v : T) {t' : Node T} {k : Nat}
    (h : Node.insert equal compare t v = .ok (t', k))
    (hall : allB p t = true) (hv : p v = true) : allB p t' = true := by
  rw [allB_iff] at hall ⊢
  intro x hx
  have hp := (insert_ok_spec equal compare t v h).2
  rcases List.mem_cons.mp (hp.mem_iff.mp hx) with rfl | hx'
  · exact hv
  · exact hall x hx'

theorem insert_isBST {T : Type} [LinearOrder T] (eq : T → T → Bool)
    (h₂ : ∀ a b : T, ¬ a < b → ¬ b < a → eq a b = true)
    (t : Node T) (v : T) {t' : Node T} {k : Nat}
    (h : Node.insert eq ltB t v = .ok (t', k))
    (hb : isBSTb t = true) : isBSTb t' = true := by
  induction t generalizing t' k with
  | nil =>
    simp only [Node.insert, Except.ok.injEq, Prod.mk.injEq] at h
    obtain ⟨rfl, rfl⟩ := h
    simp [isBSTb, allB]
  | node d l r ihl ihr =>
    simp only [Node.insert] at h
    simp only [isBSTb, Bool.and_eq_true] at hb
    obtain ⟨⟨⟨hal, har⟩, hbl⟩, hbr⟩ := hb
    by_cases h1 : eq v d
    · simp [h1] at h
    · have hvd : v ≠ d := by
        intro hvd
        exact h1 (h₂ v d (by simp [hvd]) (by simp [hvd]))
      by_cases h2 : v < d
      · rw [if_neg h1, if_pos (by simp [ltB, h2])] at h
        cases hi : Node.insert eq ltB l v with
        | ok p =>
          obtain ⟨l2, k0⟩ := p
          rw [hi] at h
          simp only [Except.ok.injEq, Prod.mk.injEq] at h
          obtain ⟨h3, h4⟩ := h
          subst h4
          cases h3
          simp only [isBSTb, Bool.and_eq_true]
          exact ⟨⟨⟨insert_allB eq ltB _ l v hi hal (by simp [h2]), har⟩,
            ihl hi hbl⟩, hbr⟩
        | error e => rw [hi] at h; exact absurd h (by simp)
      · have h2' : d < v := ((lt_or_gt_of_ne hvd).resolve_left h2)
        rw [if_neg h1, if_neg (by simp [ltB, h2])] at h
        cases hi : Node.insert eq ltB r v with
        | ok p =>
          obtain ⟨r2, k0⟩ := p
          rw [hi] at h
          simp only [Except.ok.injEq, Prod.mk.injEq] at h
          obtain ⟨h3, h4⟩ := h
          subst h4
          cases h3
          simp only [isBSTb, Bool.and_eq_true]
          exact ⟨⟨⟨hal, insert_allB eq ltB _ r v hi har (by simp [h2'])⟩,
            hbl⟩, ihr hi hbr⟩
        | error e => rw [hi] at h; exact absurd h (by simp)

/-! ## Iterator correctness machinery

`ctxR t p` is the part of `inorder t` that comes after every element of the
subtree at path `p`: the values of right-turn context nodes and their right
subtrees are passed; descending left at a node puts that node and its right
subtree after the whole left subtree. -/

/-- The in-order elements of `t` that follow everything in the subtree at
path `p`. -/
def ctxR {T : Type} : Node T → List Bool → List T
  | _, [] => []
  | .nil, _ :: _ => []
  | .node d l r, false :: p => ctxR l p ++ d :: inorder r
  | .node _ _ r, true :: p => ctxR r p

/-- The position of the last left turn of a path: `some q` when
`p = q ++ false :: s` with `s` all right turns, `none` when `p` is all
right turns. -/
def lastLeft : List Bool → Option (List Bool)
  | [] => none
  | false :: rest =>
    match lastLeft rest with
    | some q => some (false :: q)
    | none => some []
  | true :: rest => (lastLeft rest).map (fun q => true :: q)

theorem ctxR_empty {T : Type} (t : Node T) : ctxR t [] = [] := by
  cases t <;> rfl

theorem ctxR_nil {T : Type} (p : List Bool) :
    ctxR (Node.nil : Node T) p = [] := by
  cases p <;> rfl

theorem ctxR_append {T : Type} (p q : List Bool) (t : Node T) :
    ctxR t (p ++ q) = ctxR (subAt t p) q ++ ctxR t p := by
  induction p generalizing t with
  | nil => simp [ctxR_empty, subAt_empty]
  | cons b p ih =>
    cases t with
    | nil => simp [ctxR_nil, subAt_nil]
    | node d l r =>
      cases b with
      | false => simp [ctxR, subAt, ih]
      | true => simp [ctxR, subAt, ih]

theorem ctxR_all_true {T : Type} (p : List Bool) (t : Node T)
    (h : ∀ x ∈ p, x = true) : ctxR t p = [] := by
  induction p generalizing t with
  | nil => exact ctxR_empty t
  | cons b p ih =>
    have hb : b = true := h b (by simp)
    subst hb
    cases t with
    | nil => rfl
    | node d l r => exact ih r fun x hx => h x (by simp [hx])

theorem lastLeft_none {p : List Bool} (h : lastLeft p = none) :
    ∀ x ∈ p, x = true := by
  induction p with
  | nil => simp
  | cons b p ih =>
    cases b with
    | false =>
      exfalso
      simp only [lastLeft] at h
      cases hl : lastLeft p <;> simp [hl] at h
    | true =>
      simp only [lastLeft, Option.map_eq_none'] at h
      intro x hx
      rcases List.mem_cons.mp hx with rfl | hx
      · rfl
      · exact ih h x hx

theorem lastLeft_some {p q : List Bool} (h : lastLeft p = some q) :
    ∃ s, p = q ++ false :: s ∧ ∀ x ∈ s, x = true := by
  induction p generalizing q with
  | nil => simp [lastLeft] at h
  | cons b p ih =>
    cases b with
    | false =>
      simp only [lastLeft] at h
      cases hl : lastLeft p with
      | some q0 =>
        rw [hl] at h
        simp only [Option.some.injEq] at h
        subst h
        obtain ⟨s, hs, hst⟩ := ih hl
        exact ⟨s, by simp [hs], hst⟩
      | none =>
        rw [hl] at h
        simp only [Option.some.injEq] at h
        subst h
        exact ⟨p, rfl, lastLeft_none hl⟩
    | true =>
      simp only [lastLeft, Option.map_eq_some'] at h
      obtain ⟨q0, hq0, rfl⟩ := h
      obtain ⟨s, hs, hst⟩ := ih hq0
      exact ⟨s, by simp [hs], hst⟩

/-- The relative leftmost path reaches a node with no left child, and the
subtree's in-order listing starts with that node's value and continues with
its right subtree followed by the right context accumulated on the way
down. -/
theorem relLeftmost_spec {T : Type} (t : Node T) (ht : t ≠ .nil) :
    ∃ w rw, subAt t (relLeftmost t) = .node w .nil rw ∧
      inorder t = w :: (inorder rw ++ ctxR t (relLeftmost t)) := by
  induction t with
  | nil => exact absurd rfl ht
  | node d l r ihl ihr =>
    cases l with
    | nil =>
      refine ⟨d, r, ?_, ?_⟩
      · simp [relLeftmost, subAt_empty]
      · simp [relLeftmost, inorder, ctxR_empty]
    | node a l2 r2 =>
      obtain ⟨w, rw, hsub, hin⟩ := ihl (by simp)
      refine ⟨w, rw, ?_, ?_⟩
      · simpa [relLeftmost, subAt] using hsub
      · show inorder (Node.node a l2 r2) ++ d :: inorder r = _
        rw [hin]
        simp [relLeftmost, ctxR]

/-- On a binary search tree the re-descent loop of `findNext` retraces the
node's access path exactly (the comparisons `node->data < ancestor->data`
agree with the recorded turns), terminates at the node without ever
dereferencing a null ancestor, and returns the deepest ancestor from which
the descent turned left — the initial candidate when there is no left
turn. -/
theorem findNextLoop_spec {T : Type} [LinearOrder T] (a : Node T) :
    ∀ (rel base : List Bool) (succ : Option (List Bool)) (v : T)
      (lsub rsub : Node T), isBSTb a = true →
      subAt a rel = .node v lsub rsub →
      findNextLoop ltB v (base ++ rel) a base succ =
        .ok (match lastLeft rel with
             | some q => some (base ++ q)
             | none => succ) := by
  induction a with
  | nil =>
    intro rel base succ v lsub rsub _ hs
    cases rel with
    | nil => rw [subAt_empty] at hs; exact absurd hs (by simp)
    | cons b p => rw [subAt_nil] at hs; exact absurd hs (by simp)
  | node d l r ihl ihr =>
    intro rel base succ v lsub rsub hb hs
    simp only [isBSTb, Bool.and_eq_true] at hb
    obtain ⟨⟨⟨hal, har⟩, hbl⟩, hbr⟩ := hb
    cases rel with
    | nil =>
      rw [findNextLoop]
      simp [lastLeft]
    | cons b p =>
      have hne : ¬ base = base ++ b :: p := by
        intro hcontra
        have := congrArg List.length hcontra
        simp at this
      rw [findNextLoop, if_neg hne]
      cases b with
      | false =>
        have hsl : subAt l p = .node v lsub rsub := hs
        have hvd : v < d := by simpa using allB_subAt _ p l hal hsl
        rw [if_pos (show ltB v d = true by simp [ltB, hvd])]
        have hp : base ++ false :: p = (base ++ [false]) ++ p := by simp
        rw [hp, ihl p (base ++ [false]) (some base) v lsub rsub hbl hsl]
        cases hl : lastLeft p <;> simp [lastLeft, hl]
      | true =>
        have hsr : subAt r p = .node v lsub rsub := hs
        have hdv : d < v := by simpa using allB_subAt _ p r har hsr
        rw [if_neg (show ¬ ltB v d = true by simp [ltB]; exact le_of_lt hdv)]
        have hp : base ++ true :: p = (base ++ [true]) ++ p := by simp
        rw [hp, ihr p (base ++ [true]) succ v lsub rsub hbr hsr]
        cases hl : lastLeft p <;> simp [lastLeft, hl]

/-- One unfolding of the iteration loop at a valid iterator position whose
successor computation does not crash. -/
theorem iterFrom_step {T : Type} (lt : T → T → Bool) (root : Node T)
    (p : List Bool) (m : Nat) (d : T) (ls rs : Node T)
    (next : Option (List Bool)) (hs : subAt root p = .node d ls rs)
    (hn : findNext lt root p = .ok next) :
    iterFrom lt root (some p) (m + 1) =
      match iterFrom lt root next m with
      | .ok rest => .ok (d :: rest)
      | .error e => .error e := by
  simp only [iterFrom]
  rw [hs, hn]

/-- Iterating from the iterator positioned on the node at path `p` of a
binary search tree yields that node's value followed by its right subtree's
in-order listing and the right context of `p` — the rest of the in-order
traversal — given enough fuel. -/
theorem iterFrom_spec {T : Type} [LinearOrder T] (t : Node T)
    (hb : isBSTb t = true) :
    ∀ (fuel : Nat) (p : List Bool) (v : T) (lsub rsub : Node T),
      subAt t p = .node v lsub rsub →
      (inorder rsub ++ ctxR t p).length + 1 ≤ fuel →
      iterFrom ltB t (some p) fuel =
        .ok (v :: (inorder rsub ++ ctxR t p)) := by
  intro fuel
  induction fuel with
  | zero => intro p v lsub rsub hs hf; omega
  | succ m ih =>
    intro p v lsub rsub hs hf
    cases rsub with
    | node a rl rr =>
      have hn : findNext ltB t p =
          .ok (some (p ++ true :: relLeftmost (Node.node a rl rr))) := by
        rw [findNext, hs]
      rw [iterFrom_step ltB t p m v lsub (Node.node a rl rr) _ hs hn]
      obtain ⟨w, wr, hsub, hin⟩ :=
        relLeftmost_spec (Node.node a rl rr) (by simp)
      have hq : subAt t (p ++ true :: relLeftmost (Node.node a rl rr)) =
          .node w .nil wr := by
        rw [show (true : Bool) :: relLeftmost (Node.node a rl rr) =
            [true] ++ relLeftmost (Node.node a rl rr) from rfl,
          ← List.append_assoc, subAt_append, subAt_append, hs]
        exact hsub
      have hctx : ctxR t (p ++ true :: relLeftmost (Node.node a rl rr)) =
          ctxR (Node.node a rl rr) (relLeftmost (Node.node a rl rr)) ++
            ctxR t p := by
        rw [ctxR_append, hs]
        rfl
      have hlen : (inorder wr ++
          ctxR t (p ++ true :: relLeftmost (Node.node a rl rr))).length + 1
            ≤ m := by
        rw [hctx]
        have h1 := congrArg List.length hin
        simp only [List.length_append, List.length_cons] at h1 hf ⊢
        omega
      rw [ih _ w .nil wr hq hlen]
      rw [hctx, hin]
      simp
    | nil =>
      have h0 : findNextLoop ltB v p t [] none =
          .ok (match lastLeft p with
               | some q => some (([] : List Bool) ++ q)
               | none => none) :=
        findNextLoop_spec t p [] none v lsub .nil hb hs
      cases hl : lastLeft p with
      | none =>
        rw [hl] at h0
        simp only [] at h0
        have hn : findNext ltB t p = .ok none := by
          rw [findNext, hs]
          exact h0
        rw [iterFrom_step ltB t p m v lsub .nil none hs hn]
        have hc : ctxR t p = [] := ctxR_all_true p t (lastLeft_none hl)
        simp [iterFrom, inorder, hc]
      | some q =>
        rw [hl] at h0
        simp only [List.nil_append] at h0
        have hn : findNext ltB t p = .ok (some q) := by
          rw [findNext, hs]
          exact h0
        rw [iterFrom_step ltB t p m v lsub .nil (some q) hs hn]
        obtain ⟨s, hp, hst⟩ := lastLeft_some hl
        have hsq : subAt (subAt t q) (false :: s) = .node v lsub .nil := by
          rw [← subAt_append, ← hp]
          exact hs
        cases hqt : subAt t q with
        | nil => rw [hqt, subAt_nil] at hsq; exact absurd hsq (by simp)
        | node w lq rq =>
          rw [hqt] at hsq
          have hctx : ctxR t p = w :: (inorder rq ++ ctxR t q) := by
            rw [hp, ctxR_append, hqt]
            show (ctxR lq s ++ w :: inorder rq) ++ ctxR t q = _
            rw [ctxR_all_true s lq hst]
            simp
          have hlen : (inorder rq ++ ctxR t q).length + 1 ≤ m := by
            rw [hctx] at hf
            simp only [List.length_append, List.length_cons,
              inorder] at hf ⊢
            omega
          rw [ih q w lq rq hqt hlen]
          rw [hctx]
          simp [inorder]

/-- Iterating a binary search tree from `begin()` to `end()` with fuel at
least the node count yields exactly the in-order listing. -/
theorem iterate_eq_inorder {T : Type} [LinearOrder T] (t : Node T)
    (hb : isBSTb t = true) (fuel : Nat) (hf : count_nodes t ≤ fuel) :
    iterate ltB t fuel = .ok (inorder t) := by
  cases t with
  | nil => simp [iterate, beginPath, iterFrom, inorder]
  | node d l r =>
    obtain ⟨w, wr, hsub, hin⟩ := relLeftmost_spec (Node.node d l r) (by simp)
    rw [iterate, show beginPath (Node.node d l r) =
      some (relLeftmost (Node.node d l r)) from rfl]
    have hlen : (inorder wr ++
        ctxR (Node.node d l r) (relLeftmost (Node.node d l r))).length + 1
          ≤ fuel := by
      have h1 := congrArg List.length hin
      rw [inorder_length] at h1
      simp only [List.length_append, List.length_cons] at h1 ⊢
      omega
    rw [iterFrom_spec (Node.node d l r) hb fuel
      (relLeftmost (Node.node d l r)) w .nil wr hsub hlen]
    rw [hin]

/-! ## Containers built by insertion sequences -/

/-- Containers obtained from the default constructor by a sequence of
`insert` calls (successful or duplicate-failing; a failing call leaves the
container unobservably unchanged). -/
inductive BuiltT {T : Type} (cmp eq : T → T → Bool) : BinaryTree T → Prop where
  | empty : BuiltT cmp eq (BinaryTree.mkEmpty cmp eq)
  | step (bt : BinaryTree T) (v : T) : BuiltT cmp eq bt →
      BuiltT cmp eq (bt.insert v).1

theorem BuiltT_fields {T : Type} {cmp eq : T → T → Bool} {bt : BinaryTree T}
    (h : BuiltT cmp eq bt) : bt.compare = cmp ∧ bt.equal = eq := by
  induction h with
  | empty => exact ⟨rfl, rfl⟩
  | step bt v hb ih =>
    cases hi : Node.insert bt.equal bt.compare bt.root v with
    | ok p =>
      obtain ⟨t2, k⟩ := p
      simpa [BinaryTree.insert, hi] using ih
    | error e => simpa [BinaryTree.insert, hi] using ih

/-- Any container built by insertions whose comparison functor is the
element type's `<` and whose equality functor is consistent with it
satisfies the strict search-tree invariant. -/
theorem BuiltT_isBST {T : Type} [LinearOrder T] (eq : T → T → Bool)
    (h₂ : ∀ a b : T, ¬ a < b → ¬ b < a → eq a b = true)
    {bt : BinaryTree T} (h : BuiltT ltB eq bt) : isBSTb bt.root = true := by
  induction h with
  | empty => rfl
  | step bt v hb ih =>
    obtain ⟨hc, he⟩ := BuiltT_fields hb
    cases hi : Node.insert bt.equal bt.compare bt.root v with
    | ok p =>
      obtain ⟨t2, k⟩ := p
      rw [hc, he] at hi
      simp only [BinaryTree.insert, hc, he, hi]
      exact insert_isBST eq h₂ bt.root v hi ih
    | error e =>
      rw [hc, he] at hi
      simpa [BinaryTree.insert, hc, he, hi] using ih

/-! ## The budgeted deep copy -/

theorem copySubB_spec {T : Type} (t : Node T) : ∀ b : Nat,
    (count_nodes t ≤ b → copySubB t b = (t, b - count_nodes t, true)) ∧
    (b < count_nodes t → (copySubB t b).2.2 = false) := by
  induction t with
  | nil =>
    intro b
    refine ⟨fun _ => ?_, fun h => ?_⟩
    · simp [copySubB, count_nodes]
    · simp [count_nodes] at h
  | node d l r ihl ihr =>
    intro b
    constructor
    · intro hle
      simp only [count_nodes] at hle ⊢
      cases b with
      | zero => omega
      | succ b0 =>
        have h1 := (ihl b0).1 (by omega)
        have h2 := (ihr (b0 - count_nodes l)).1 (by omega)
        simp only [copySubB, h1, h2, Prod.mk.injEq, true_and, and_true]
        omega
    · intro hlt
      cases b with
      | zero => simp [copySubB]
      | succ b0 =>
        simp only [count_nodes] at hlt
        by_cases hcl : count_nodes l ≤ b0
        · have h1 := (ihl b0).1 hcl
          simp only [copySubB, h1]
          exact (ihr (b0 - count_nodes l)).2 (by omega)
        · have h3 := (ihl b0).2 (by omega)
          rcases hL : copySubB l b0 with ⟨lc, b1, ok1⟩
          rw [hL] at h3
          simp only at h3
          subst h3
          simp [copySubB, hL]

theorem copySubB_ok_root {T : Type} (t : Node T) (b : Nat) {c : Node T}
    {b2 : Nat} (h : copySubB t b = (c, b2, true)) : c = t := by
  by_cases hle : count_nodes t ≤ b
  · rw [(copySubB_spec t b).1 hle] at h
    simp only [Prod.mk.injEq] at h
    exact h.1.symm
  · have hf := (copySubB_spec t b).2 (by omega)
    rw [h] at hf
    simp at hf

/-! ## Search correctness -/

theorem existsB_true_mem {T : Type} (eq cmp : T → T → Bool) (t : Node T)
    (v : T) (h : Node.existsB eq cmp t v = true) :
    ∃ x ∈ inorder t, eq x v = true := by
  induction t with
  | nil => simp [Node.existsB] at h
  | node d l r ihl ihr =>
    simp only [Node.existsB] at h
    cases he : eq d v with
    | true => exact ⟨d, by simp [inorder], he⟩
    | false =>
      rw [he] at h
      simp only [Bool.false_eq_true, if_false] at h
      cases hc : cmp v d with
      | true =>
        rw [hc] at h
        simp only [if_true] at h
        obtain ⟨x, hx, hxe⟩ := ihl h
        exact ⟨x, by simp [inorder, hx], hxe⟩
      | false =>
        rw [hc] at h
        simp only [Bool.false_eq_true, if_false] at h
        obtain ⟨x, hx, hxe⟩ := ihr h
        exact ⟨x, by simp [inorder, hx], hxe⟩

theorem mem_existsB {T : Type} [LinearOrder T] (eq : T → T → Bool)
    (t : Node T) (v : T) (hb : isBSTb t = true) (hv : v ∈ inorder t)
    (hself : eq v v = true) : Node.existsB eq ltB t v = true := by
  induction t with
  | nil => simp [inorder] at hv
  | node d l r ihl ihr =>
    simp only [isBSTb, Bool.and_eq_true] at hb
    obtain ⟨⟨⟨hal, har⟩, hbl⟩, hbr⟩ := hb
    simp only [Node.existsB]
    by_cases hdv : d = v
    · simp [hdv, hself]
    · cases he : eq d v with
      | true => simp
      | false =>
        simp only [Bool.false_eq_true, if_false]
        simp only [inorder, List.mem_append, List.mem_cons] at hv
        rcases hv with hvl | hvd | hvr
        · have hvd' : v < d := by simpa using (allB_iff _ l).mp hal v hvl
          rw [if_pos (by simp [ltB, hvd'])]
          exact ihl hbl hvl
        · exact absurd hvd.symm hdv
        · have hdv' : d < v := by simpa using (allB_iff _ r).mp har v hvr
          rw [if_neg (by simp [ltB]; exact le_of_lt hdv')]
          exact ihr hbr hvr

theorem find_subtree_none {T : Type} (eq cmp : T → T → Bool) (t : Node T)
    (v : T) (h : ∀ x ∈ inorder t, eq x v = false) :
    Node.find_subtree eq cmp t v = none := by
  induction t with
  | nil => rfl
  | node d l r ihl ihr =>
    simp only [Node.find_subtree]
    rw [if_neg (by simp [h d (by simp [inorder])])]
    cases hc : cmp v d with
    | true =>
      simp only [if_true]
      exact ihl fun x hx => h x (by simp [inorder, hx])
    | false =>
      simp only [Bool.false_eq_true, if_false]
      exact ihr fun x hx => h x (by simp [inorder, hx])

theorem find_subtree_found {T : Type} [LinearOrder T] (eq : T → T → Bool)
    (t : Node T) (v : T) (hb : isBSTb t = true) (hv : v ∈ inorder t)
    (hself : eq v v = true) :
    ∃ s, Node.find_subtree eq ltB t v = some s := by
  induction t with
  | nil => simp [inorder] at hv
  | node d l r ihl ihr =>
    simp only [isBSTb, Bool.and_eq_true] at hb
    obtain ⟨⟨⟨hal, har⟩, hbl⟩, hbr⟩ := hb
    simp only [Node.find_subtree]
    by_cases hdv : d = v
    · exact ⟨.node d l r, by simp [hdv, hself]⟩
    · cases he : eq d v with
      | true => exact ⟨.node d l r, by simp⟩
      | false =>
        simp only [Bool.false_eq_true, if_false]
        simp only [inorder, List.mem_append, List.mem_cons] at hv
        rcases hv with hvl | hvd | hvr
        · have hvd' : v < d := by simpa using (allB_iff _ l).mp hal v hvl
          rw [if_pos (by simp [ltB, hvd'])]
          exact ihl hbl hvl
        · exact absurd hvd.symm hdv
        · have hdv' : d < v := by simpa using (allB_iff _ r).mp har v hvr
          rw [if_neg (by simp [ltB]; exact le_of_lt hdv')]
          exact ihr hbr hvr

/-! ## The sequence constructor -/

theorem insertSeq_error {T : Type} (p : List T) :
    ∀ (bt0 btp : BinaryTree T) (v : T) (s : List T),
      insertSeq p bt0 = .ok btp → (btp.insert v).2 = .error () →
      insertSeq (p ++ v :: s) bt0 = .error () := by
  induction p with
  | nil =>
    intro bt0 btp v s h1 h2
    simp only [insertSeq, Except.ok.injEq] at h1
    subst h1
    simp only [List.nil_append, insertSeq]
    rcases hi : bt0.insert v with ⟨bt2, res⟩
    rw [hi] at h2
    simp only at h2
    subst h2
    rfl
  | cons a p ih =>
    intro bt0 btp v s h1 h2
    simp only [insertSeq] at h1
    rcases hi : bt0.insert a with ⟨bt1, res⟩
    rw [hi] at h1
    cases res with
    | ok u =>
      simp only at h1
      show insertSeq (a :: (p ++ v :: s)) bt0 = .error ()
      simp only [insertSeq]
      rw [hi]
      exact ih bt1 btp v s h1 h2
    | error e => simp at h1

theorem insertSeq_ok {T : Type} (l : List T) :
    ∀ (bt0 bt : BinaryTree T), insertSeq l bt0 = .ok bt →
      (inorder bt.root).Perm (l ++ inorder bt0.root) ∧
      bt.node_count = bt0.node_count + l.length := by
  induction l with
  | nil =>
    intro bt0 bt h
    simp only [insertSeq, Except.ok.injEq] at h
    subst h
    simp
  | cons v l ih =>
    intro bt0 bt h
    simp only [insertSeq] at h
    rcases hi : bt0.insert v with ⟨bt1, res⟩
    rw [hi] at h
    cases res with
    | error e => simp at h
    | ok u =>
      simp only at h
      obtain ⟨hperm, hcount⟩ := ih bt1 bt h
      cases hni : Node.insert bt0.equal bt0.compare bt0.root v with
      | ok q =>
        obtain ⟨t2, k⟩ := q
        have hv : bt0.insert v =
            ({ bt0 with root := t2, node_count := bt0.node_count + k },
              .ok ()) := by
          simp [BinaryTree.insert, hni]
        rw [hi] at hv
        have hbt1 : bt1 =
            { bt0 with root := t2, node_count := bt0.node_count + k } :=
          congrArg Prod.fst hv
        obtain ⟨hk, hinsp⟩ := insert_ok_spec _ _ _ _ hni
        subst hk
        constructor
        · have hroot : bt1.root = t2 := by rw [hbt1]
          rw [hroot] at hperm
          exact hperm.trans ((hinsp.append_left l).trans List.perm_middle)
        · have hcnt : bt1.node_count = bt0.node_count + 1 := by rw [hbt1]
          rw [hcnt] at hcount
          simp only [List.length_cons]
          omega
      | error e =>
        have hv : bt0.insert v = (bt0, .error ()) := by
          simp [BinaryTree.insert, hni]
        rw [hi] at hv
        have := congrArg Prod.snd hv
        simp at this

/-! ## Reachable container states and the size invariant -/

/-- Container states reachable by the operations named in the size
invariant: default construction, insertion (either outcome), copy
construction, copy assignment (self or not, any allocation budget) and
subtree extraction. -/
inductive Reach {T : Type} : BinaryTree T → Prop where
  | empty (cmp eq : T → T → Bool) : Reach (BinaryTree.mkEmpty cmp eq)
  | insert (bt : BinaryTree T) (v : T) : Reach bt → Reach (bt.insert v).1
  | copy (other : BinaryTree T) : Reach other → Reach (BinaryTree.copy other)
  | assign (target other : BinaryTree T) (same : Bool) (budget : Nat) :
      Reach target → Reach other →
      Reach (BinaryTree.assign target other same budget).1
  | subtree (bt : BinaryTree T) (v : T) : Reach bt → Reach (bt.subtree v)

theorem Reach_count {T : Type} {bt : BinaryTree T} (h : Reach bt) :
    bt.node_count = count_nodes bt.root := by
  induction h with
  | empty cmp eq => rfl
  | insert bt v hb ih =>
    cases hi : Node.insert bt.equal bt.compare bt.root v with
    | ok q =>
      obtain ⟨t2, k⟩ := q
      simp only [BinaryTree.insert, hi]
      have hk := (insert_ok_spec _ _ _ _ hi).1
      have hc := insert_count _ _ _ _ hi
      omega
    | error e => simpa [BinaryTree.insert, hi] using ih
  | copy other ho ih =>
    cases hr : other.root with
    | nil => simp [BinaryTree.copy, copy_subtree_eq, hr, count_nodes]
    | node a b c =>
      simp only [BinaryTree.copy, copy_subtree_eq, hr]
      rw [hr] at ih
      exact ih
  | assign target other same budget ht ho iht iho =>
    simp only [BinaryTree.assign]
    cases same with
    | true => simpa using iht
    | false =>
      simp only [Bool.false_eq_true, if_false]
      rcases hcs : copySubB other.root budget with ⟨c, b2, ok2⟩
      cases ok2 with
      | true =>
        have hc : c = other.root := copySubB_ok_root _ _ hcs
        subst hc
        cases hr : other.root with
        | nil => simp [hr, count_nodes]
        | node a b c0 =>
          simp only [hr]
          rw [hr] at iho
          exact iho
      | false => simp [destroy_tree, count_nodes]
  | subtree bt v hb ih =>
    cases hf : Node.find_subtree bt.equal bt.compare bt.root v with
    | none => simp [BinaryTree.subtree, hf, count_nodes]
    | some s => simp [BinaryTree.subtree, hf]

/-! ## Concrete sample containers for the claim witnesses -/

/-- The consistency direction "equal implies incomparable" for `eqNat`. -/
theorem eqNat_consistent₁ : ∀ a b : Nat, eqNat a b = true →
    ¬ a < b ∧ ¬ b < a := by
  intro a b h
  simp [eqNat] at h
  omega

/-- The consistency direction "ties imply equal" for `eqNat`. -/
theorem eqNat_consistent₂ : ∀ a b : Nat, ¬ a < b → ¬ b < a →
    eqNat a b = true := by
  intro a b h1 h2
  simp [eqNat]
  omega

/-- A default-configured (`std::less` / `std::equal_to`) container holding
5, 3, 8, inserted in that order. -/
abbrev sampleBT : BinaryTree Nat :=
  ((((BinaryTree.mkEmpty ltB eqNat).insert 5).1.insert 3).1.insert 8).1

/-- `sampleBT` is built by insertions. -/
theorem sampleBT_built : BuiltT ltB eqNat sampleBT :=
  BuiltT.step _ 8 (BuiltT.step _ 3 (BuiltT.step _ 5 BuiltT.empty))

/-- A container configured with the reversed order `gtNat` holding 1 and 2
(2 sits in the left subtree of 1). -/
abbrev gtTree : Node Nat :=
  ((((BinaryTree.mkEmpty gtNat eqNat).insert 1).1.insert 2).1).root

/-- A one-node assignment target holding 1. -/
abbrev c4target : BinaryTree Nat :=
  ((BinaryTree.mkEmpty ltB eqNat).insert 1).1

/-- A two-node assignment source holding 2 and 3. -/
abbrev c4source : BinaryTree Nat :=
  (((BinaryTree.mkEmpty ltB eqNat).insert 2).1.insert 3).1

/-- The container state after successfully inserting 1 then 2. -/
abbrev c3pre : BinaryTree Nat :=
  (((BinaryTree.mkEmpty ltB eqNat).insert 1).1.insert 2).1

/-- The container built from the duplicate-free sequence 2, 1, 3. -/
abbrev c3bt : BinaryTree Nat :=
  ((((BinaryTree.mkEmpty ltB eqNat).insert 2).1.insert 1).1.insert 3).1

/-- A parity-based equality functor, deliberately inconsistent with the
built-in order on `Nat`. -/
abbrev eqPar : Nat → Nat → Bool := fun a b => decide (a % 2 = b % 2)

/-! ## The claims -/

/-- Claim C1, counterexample.  The claim quantifies over every configured
strict-less-than ordering relation, but `findNext` re-descends comparing
with the element type's built-in `operator<` instead of the configured
`Compare`.  Configure the tree with the (spec-compliant, strict total)
reversed order `gtNat` and insert 1 then 2 — both insertions succeed and 2
becomes the left child of 1.  Iterating from `begin()` then dereferences a
null ancestor pointer inside the second successor computation (undefined
behaviour in C++, `Except.error` in the model) instead of yielding the
elements in the configured ascending order 2, 1. -/
theorem c1_counterexample :
    ((BinaryTree.mkEmpty gtNat eqNat).insert 1).2 = .ok () ∧
    (((BinaryTree.mkEmpty gtNat eqNat).insert 1).1.insert 2).2 = .ok () ∧
    iterate ltNat gtTree 10 = .error () :=
  ⟨rfl, rfl, rfl⟩

/-- Claim C1, amended.  For every tree built by any sequence of successful
insertions whose configured ordering relation is the element type's built-in
`<` (the relation hardcoded by `findNext`; the default `std::less`
configuration) and whose equality relation is consistent with it, iterating
from `begin()` to `end()` yields the tree's elements in strictly ascending
order. -/
theorem c1_iterate_sorted (T : Type) [LinearOrder T] (eq : T → T → Bool)
    (h₂ : ∀ a b : T, ¬ a < b → ¬ b < a → eq a b = true)
    (bt : BinaryTree T) (hb : BuiltT ltB eq bt) (fuel : Nat)
    (hf : count_nodes bt.root ≤ fuel) :
    iterate ltB bt.root fuel = .ok (inorder bt.root) ∧
      List.Pairwise (· < ·) (inorder bt.root) := by
  have hbst := BuiltT_isBST eq h₂ hb
  exact ⟨iterate_eq_inorder bt.root hbst fuel hf, isBSTb_pairwise _ hbst⟩

/-- Witness for the amended claim C1 on the concrete container 5, 3, 8. -/
theorem c1_iterate_sorted_witness :
    iterate ltB sampleBT.root 3 = .ok (inorder sampleBT.root) ∧
      List.Pairwise (· < ·) (inorder sampleBT.root) :=
  c1_iterate_sorted Nat eqNat eqNat_consistent₂ sampleBT sampleBT_built 3
    (by decide)

/-- Claim C2: inserting a value equal (per the configured equality
relation) to an element met on the descent path fails with the duplicate
error and leaves the container — its size and its in-order sequence —
exactly as it was. -/
theorem c2_insert_duplicate (T : Type) (bt : BinaryTree T) (v : T)
    (h : duplicateOnPath bt.equal bt.compare bt.root v = true) :
    (bt.insert v).2 = .error () ∧ (bt.insert v).1 = bt ∧
      (bt.insert v).1.node_count = bt.node_count ∧
      inorder (bt.insert v).1.root = inorder bt.root := by
  have he : Node.insert bt.equal bt.compare bt.root v = .error () :=
    (insert_error_iff _ _ _ _).mpr h
  refine ⟨?_, ?_, ?_, ?_⟩ <;> simp [BinaryTree.insert, he]

/-- Witness for claim C2: re-inserting 3 into the container 5, 3, 8. -/
theorem c2_insert_duplicate_witness :
    (sampleBT.insert 3).2 = .error () ∧ (sampleBT.insert 3).1 = sampleBT ∧
      (sampleBT.insert 3).1.node_count = sampleBT.node_count ∧
      inorder (sampleBT.insert 3).1.root = inorder sampleBT.root :=
  c2_insert_duplicate Nat sampleBT 3 (by decide)

/-- Claim C3: the sequence constructor inserts each element in sequence
order; if some insertion raises the duplicate error the constructor call
itself fails — the error propagates and no container value is produced (the
partially built nodes were handed to `destroy_tree`) — and on success the
container holds exactly the sequence's elements with matching node count. -/
theorem c3_ofSeq_spec (T : Type) :
    (∀ (cmp eq : T → T → Bool) (p : List T) (btp : BinaryTree T) (v : T)
        (s : List T),
        insertSeq p (BinaryTree.mkEmpty cmp eq) = .ok btp →
        (btp.insert v).2 = .error () →
        BinaryTree.ofSeq cmp eq (p ++ v :: s) = .error ()) ∧
    (∀ (cmp eq : T → T → Bool) (l : List T) (bt : BinaryTree T),
        BinaryTree.ofSeq cmp eq l = .ok bt →
        (inorder bt.root).Perm l ∧ bt.node_count = l.length) := by
  constructor
  · intro cmp eq p btp v s h1 h2
    exact insertSeq_error p _ btp v s h1 h2
  · intro cmp eq l bt h
    obtain ⟨hp, hc⟩ := insertSeq_ok l _ bt h
    constructor
    · simpa [BinaryTree.mkEmpty, inorder] using hp
    · simpa [BinaryTree.mkEmpty] using hc

/-- Witness for claim C3: constructing from 1, 2, 1, 5 fails on the
duplicate 1; constructing from 2, 1, 3 succeeds with the right contents. -/
theorem c3_ofSeq_spec_witness :
    BinaryTree.ofSeq ltB eqNat [1, 2, 1, 5] = .error () ∧
    ((inorder c3bt.root).Perm [2, 1, 3] ∧
      c3bt.node_count = [2, 1, 3].length) :=
  ⟨(c3_ofSeq_spec Nat).1 ltB eqNat [1, 2] c3pre 1 [5] rfl rfl,
   (c3_ofSeq_spec Nat).2 ltB eqNat [2, 1, 3] c3bt rfl⟩

/-- Claim C4, counterexample.  `operator=` destroys the target's nodes
before duplicating the source, so when duplication fails partway (source of
two nodes, allocation budget one) the target is NOT left in its prior valid
state: its in-order sequence was 1 before the call and is empty afterwards. -/
theorem c4_counterexample :
    (BinaryTree.assign c4target c4source false 1).2 = .error () ∧
    inorder (BinaryTree.assign c4target c4source false 1).1.root ≠
      inorder c4target.root :=
  ⟨rfl, by decide⟩

/-- Claim C4, amended.  Copy-assignment is a no-op when source and target
are the same object; when duplication of the source fails partway (budget
below the source's node count) the partially built structure is released
and the error propagates, but the target is left empty — its prior contents
were already released before the copy began — rather than in its prior
state. -/
theorem c4_assign_spec (T : Type) (target other : BinaryTree T)
    (budget : Nat) :
    BinaryTree.assign target other true budget = (target, .ok ()) ∧
    (budget < count_nodes other.root →
      BinaryTree.assign target other false budget =
        ({ root := .nil, compare := other.compare, equal := other.equal,
           node_count := 0 }, .error ())) := by
  constructor
  · rfl
  · intro h
    have hf := (copySubB_spec other.root budget).2 h
    rcases hcs : copySubB other.root budget with ⟨c, b2, ok2⟩
    rw [hcs] at hf
    simp only at hf
    subst hf
    simp [BinaryTree.assign, hcs, destroy_tree]

/-- Witness for the amended claim C4. -/
theorem c4_assign_spec_witness :
    BinaryTree.assign c4target c4source true 1 = (c4target, .ok ()) ∧
    BinaryTree.assign c4target c4source false 1 =
      ({ root := .nil, compare := c4source.compare, equal := c4source.equal,
         node_count := 0 }, .error ()) :=
  ⟨(c4_assign_spec Nat c4target c4source 1).1,
   (c4_assign_spec Nat c4target c4source 1).2 (by decide)⟩

/-- Claim C5, counterexample.  The stream output runs `print_in_order`, a
recursive traversal independent of the iterator.  On the `gtNat`-configured
tree holding 1 and 2 the rendering writes 2 then 1, while iterating from
`begin()` to `end()` crashes (null dereference, `Except.error`) — so the
rendering is not equivalent to the iteration protocol on every tree. -/
theorem c5_counterexample :
    print_in_order gtTree = [2, 1] ∧
    iterate ltNat gtTree 10 = .error () ∧
    Except.ok (print_in_order gtTree) ≠ iterate ltNat gtTree 10 := by
  refine ⟨rfl, rfl, fun h => ?_⟩
  rw [show iterate ltNat gtTree 10 = .error () from rfl] at h
  exact Except.noConfusion h

/-- Claim C5, amended.  The rendering is the recursive in-order traversal
`print_in_order` (each element written followed by one space); whenever the
configured ordering relation is the element type's built-in `<` with a
consistent equality relation — the configurations under which the iterator
functions at all — it writes exactly the sequence produced by iterating
from `begin()` to `end()`, in the same order. -/
theorem c5_print_matches_iteration (T : Type) [LinearOrder T]
    (eq : T → T → Bool)
    (h₂ : ∀ a b : T, ¬ a < b → ¬ b < a → eq a b = true)
    (bt : BinaryTree T) (hb : BuiltT ltB eq bt) (fuel : Nat)
    (hf : count_nodes bt.root ≤ fuel) :
    iterate ltB bt.root fuel = .ok (print_in_order bt.root) := by
  rw [print_in_order_eq_inorder]
  exact iterate_eq_inorder bt.root (BuiltT_isBST eq h₂ hb) fuel hf

/-- Witness for the amended claim C5 on the container 5, 3, 8. -/
theorem c5_print_matches_iteration_witness :
    iterate ltB sampleBT.root 3 = .ok (print_in_order sampleBT.root) :=
  c5_print_matches_iteration Nat eqNat eqNat_consistent₂ sampleBT
    sampleBT_built 3 (by decide)

/-- Claim C6: `subtree` is total.  On a value no element is equal to, it
returns the empty container (no root, size 0) without failing; on a value
some element is equal to, it returns an independently built container whose
in-order sequence equals that of the original subtree rooted at the
matching node, with a freshly recomputed node count.  The hypotheses fix
the configuration the spec requires: the ordering is a strict total order
(modelled as the `<` of a linear order) and the equality relation is
mutually consistent with it. -/
theorem c6_subtree_spec (T : Type) [LinearOrder T] (eq : T → T → Bool)
    (h₁ : ∀ a b : T, eq a b = true → ¬ a < b ∧ ¬ b < a)
    (h₂ : ∀ a b : T, ¬ a < b → ¬ b < a → eq a b = true)
    (bt : BinaryTree T) (hb : BuiltT ltB eq bt) (v : T) :
    ((∀ x ∈ inorder bt.root, eq x v = false) →
      (bt.subtree v).root = .nil ∧ (bt.subtree v).node_count = 0) ∧
    ((∃ x ∈ inorder bt.root, eq x v = true) →
      ∃ s, Node.find_subtree eq ltB bt.root v = some s ∧
        inorder (bt.subtree v).root = inorder s ∧
        (bt.subtree v).node_count = count_nodes s) := by
  obtain ⟨hc, he⟩ := BuiltT_fields hb
  have hbst := BuiltT_isBST eq h₂ hb
  constructor
  · intro h
    have hn : Node.find_subtree eq ltB bt.root v = none :=
      find_subtree_none eq ltB bt.root v h
    constructor <;> simp [BinaryTree.subtree, hc, he, hn]
  · rintro ⟨x, hx, hxe⟩
    have hxv : x = v := by
      obtain ⟨hnl, hng⟩ := h₁ x v hxe
      exact le_antisymm (not_lt.mp hng) (not_lt.mp hnl)
    subst hxv
    obtain ⟨s, hfs⟩ := find_subtree_found eq bt.root x hbst hx hxe
    refine ⟨s, hfs, ?_, ?_⟩ <;>
      simp [BinaryTree.subtree, hc, he, hfs, copy_subtree_eq]

/-- Witness for claim C6 on the container 5, 3, 8: value 100 is absent
(empty result), value 3 is present (matching subtree extracted). -/
theorem c6_subtree_spec_witness :
    ((sampleBT.subtree 100).root = .nil ∧
      (sampleBT.subtree 100).node_count = 0) ∧
    (∃ s, Node.find_subtree eqNat ltB sampleBT.root 3 = some s ∧
      inorder (sampleBT.subtree 3).root = inorder s ∧
      (sampleBT.subtree 3).node_count = count_nodes s) :=
  ⟨(c6_subtree_spec Nat eqNat eqNat_consistent₁ eqNat_consistent₂ sampleBT
      sampleBT_built 100).1 (by decide),
   (c6_subtree_spec Nat eqNat eqNat_consistent₁ eqNat_consistent₂ sampleBT
      sampleBT_built 3).2 ⟨3, by decide, by decide⟩⟩

/-- Claim C7: after every sequence of operations — insertions (successful
or duplicate-failing), copy construction, copy assignment (self or not,
with any allocation budget) and subtree extraction — `size()` returns the
stored count, and that count equals the number of nodes reachable from the
root.  (`size` reads one stored field, so the O(1) cost is visible from its
definition.) -/
theorem c7_size_eq_count (T : Type) (bt : BinaryTree T) (h : Reach bt) :
    bt.size = count_nodes bt.root :=
  Reach_count h

/-- Witness for claim C7: a container produced by insertions, subtree
extraction, copy construction and copy assignment. -/
theorem c7_size_eq_count_witness :
    (BinaryTree.assign (BinaryTree.mkEmpty ltB eqNat)
        (BinaryTree.copy (sampleBT.subtree 5)) false 10).1.size =
      count_nodes (BinaryTree.assign (BinaryTree.mkEmpty ltB eqNat)
        (BinaryTree.copy (sampleBT.subtree 5)) false 10).1.root :=
  c7_size_eq_count Nat _
    (Reach.assign _ _ false 10 (Reach.empty _ _)
      (Reach.copy _ (Reach.subtree _ 5
        (Reach.insert _ 8 (Reach.insert _ 3 (Reach.insert _ 5
          (Reach.empty _ _)))))))

/-- Claim C8: for containers built by successful insertions under the
spec-required configuration (ordering a strict total order, equality
mutually consistent with it), `exists(v)` returns true iff `v` is equal,
per the configured equality relation, to some element present in the tree.
The operation is `const` in the source and its model is a pure function of
the container — it cannot mutate it. -/
theorem c8_exists_iff (T : Type) [LinearOrder T] (eq : T → T → Bool)
    (h₁ : ∀ a b : T, eq a b = true → ¬ a < b ∧ ¬ b < a)
    (h₂ : ∀ a b : T, ¬ a < b → ¬ b < a → eq a b = true)
    (bt : BinaryTree T) (hb : BuiltT ltB eq bt) (v : T) :
    BinaryTree.existsB bt v = true ↔
      ∃ x ∈ inorder bt.root, eq x v = true := by
  obtain ⟨hc, he⟩ := BuiltT_fields hb
  have hbst := BuiltT_isBST eq h₂ hb
  constructor
  · intro h
    rw [BinaryTree.existsB, hc, he] at h
    exact existsB_true_mem eq ltB bt.root v h
  · rintro ⟨x, hx, hxe⟩
    have hxv : x = v := by
      obtain ⟨hnl, hng⟩ := h₁ x v hxe
      exact le_antisymm (not_lt.mp hng) (not_lt.mp hnl)
    subst hxv
    rw [BinaryTree.existsB, hc, he]
    exact mem_existsB eq bt.root x hbst hx hxe

/-- Witness for claim C8 on the container 5, 3, 8 at the present value 3. -/
theorem c8_exists_iff_witness :
    BinaryTree.existsB sampleBT 3 = true ↔
      ∃ x ∈ inorder sampleBT.root, eqNat x 3 = true :=
  c8_exists_iff Nat eqNat eqNat_consistent₁ eqNat_consistent₂ sampleBT
    sampleBT_built 3

/-- Claim C9: in `insert` the equality check is evaluated before the
ordering check.  For EVERY ordering functor — quantified with no
consistency requirement whatsoever, so including functors that order a pair
the equality functor deems equal — reaching a node whose value is equal to
the inserted value raises the duplicate error. -/
theorem c9_equality_checked_first (T : Type) (compare equal : T → T → Bool)
    (t : Node T) (v : T) (h : duplicateOnPath equal compare t v = true) :
    Node.insert equal compare t v = .error () :=
  (insert_error_iff equal compare t v).mpr h

/-- Witness for claim C9 with deliberately inconsistent functors: the
parity equality deems 2 and 4 equal while the built-in order says 2 < 4 —
the insertion still fails with the duplicate error. -/
theorem c9_equality_checked_first_witness :
    ltB (2 : Nat) 4 = true ∧ eqPar 2 4 = true ∧
      Node.insert eqPar ltB (Node.node 4 .nil .nil) 2 = .error () :=
  ⟨rfl, rfl,
    c9_equality_checked_first Nat ltB eqPar (Node.node 4 .nil .nil) 2
      (by decide)⟩

/-- Claim C10: on an empty tree (null root) `begin()` equals `end()`, so
iteration yields the empty sequence immediately at the end marker, for any
successor relation and any amount of fuel — no dereference ever happens. -/
theorem c10_empty_begin_end (T : Type) (bt : BinaryTree T)
    (lt : T → T → Bool) (fuel : Nat) (h : bt.root = .nil) :
    bt.begin = bt.endIter ∧ iterate lt bt.root fuel = .ok [] := by
  constructor
  · simp [BinaryTree.begin, BinaryTree.endIter, h, beginPath]
  · simp [iterate, h, beginPath, iterFrom]

/-- Witness for claim C10 on the default-constructed empty container. -/
theorem c10_empty_begin_end_witness :
    (BinaryTree.mkEmpty ltNat eqNat).begin =
        (BinaryTree.mkEmpty ltNat eqNat).endIter ∧
      iterate ltNat (BinaryTree.mkEmpty ltNat eqNat).root 7 = .ok [] :=
  c10_empty_begin_end Nat (BinaryTree.mkEmpty ltNat eqNat) ltNat 7 rfl

end BinTreeSpec
